import Mathlib

/-!
Verification of the fillTimesheet repository (src/main.js) against its
natural-language specification.

The JavaScript source is shallowly embedded below:
* JS `Date` values are modelled as milliseconds (an `Int`) on a proleptic
  Gregorian timeline whose origin is local midnight of January 1 of year 0.
  Only differences and comparisons of such values are ever used, so the
  choice of origin is irrelevant.
* JS numbers are modelled by exact rationals (`ℚ`); `Math.random()` draws
  are explicit parameters (`r0` for the first draw, `rs i` for the draw
  of entry `i`).  Division by zero in `ℚ` yields 0 where JS yields
  Infinity/NaN; every theorem that could be affected carries an explicit
  hypothesis ruling the degenerate case out, or is a concrete evaluation
  where the divergence does not change the verdict (noted at the theorem).
* `Number.prototype.toFixed(2)` is modelled by exact decimal rounding as
  the ECMAScript specification describes it (round to nearest hundredth,
  ties towards the larger candidate, sign split off first).
* JS `Array.prototype.at`, `Array.prototype.join`, template literals and
  the stable `Array.prototype.sort` are modelled by the explicit functions
  `arrayAt`, `joinWith`, string concatenation and `sortRows` below.
-/

namespace FillTimesheet

/-! ## Calendar model for `new Date(year, month, day)` (src/main.js lines 68-72)

`new Date(y, m, d)` normalises the month as `y + m / 12`, `m % 12` and then
resolves day `d` relative to the first of that month (day 0 is the last day
of the previous month).  The result is local midnight of that day.
-/

/-- Gregorian leap-year test. -/
def isLeap (y : Nat) : Bool :=
  (y % 4 == 0 && y % 100 != 0) || (y % 400 == 0)

/-- Days from the origin (Jan 1 of year 0) to Jan 1 of year `y`. -/
def daysBeforeYear (y : Nat) : Nat :=
  365 * y + (y + 3) / 4 + (y + 399) / 400 - (y + 99) / 100

/-- Days from Jan 1 to the first day of month index `m` (0 = January) within year `y`. -/
def daysBeforeMonth (y : Nat) (m : Nat) : Nat :=
  let l := if isLeap y then 1 else 0
  match m with
  | 0 => 0
  | 1 => 31
  | 2 => 59 + l
  | 3 => 90 + l
  | 4 => 120 + l
  | 5 => 151 + l
  | 6 => 181 + l
  | 7 => 212 + l
  | 8 => 243 + l
  | 9 => 273 + l
  | 10 => 304 + l
  | _ => 334 + l

/-- Day number of the first day of month `m` of year `y`, with JS month
normalisation (`m` may be 12 or more, rolling into later years). -/
def monthStartDay (y m : Nat) : Nat :=
  daysBeforeYear (y + m / 12) + daysBeforeMonth (y + m / 12) (m % 12)

def msPerDay : Int := 86400000

/-- `new Date(y, m, d).getTime()`: local midnight of day `d` of month `m` of
year `y`, in milliseconds.  `d = 0` denotes the day before the first of the
month, exactly as in JavaScript. -/
def newDate (y m : Nat) (d : Int) : Int :=
  msPerDay * ((monthStartDay y m : Int) + d - 1)

/-- src/main.js lines 68-72: the Month Filter.  The target year and month
(`targetDatesYear`, `targetDatesMonth` in the source) are passed explicitly. -/
def isCommitInMonth (targetDatesYear targetDatesMonth : Nat) (commitDate : Int) : Bool :=
  let startOfMonth := newDate targetDatesYear targetDatesMonth 1
  let endOfMonth := newDate targetDatesYear (targetDatesMonth + 1) 0
  decide (startOfMonth ≤ commitDate) && decide (commitDate ≤ endOfMonth)

/-! ## Fixed configuration (src/main.js lines 41-59) -/

namespace Config

def reviewComment : String := "Analyzed Pull Request and added comments"

def commitComment : String := "Worked on project and PBI associated"

def totalHours : ℚ := 160

def allowedVariation : ℚ := 5

end Config

/-! ## Decimal rendering: `Number.prototype.toFixed(2)`

Modelled exactly as the ECMAScript specification describes: split off the
sign, pick the integer `n` with `n / 100` closest to the magnitude (ties to
the larger `n`, i.e. `n = ⌊100·x + 1/2⌋`), and print `n` with two decimals.
Digits are rendered by `natChars` (standard decimal notation, fuel-based so
that it evaluates inside the kernel).
-/

def digitChar (d : Nat) : Char := Char.ofNat (48 + d)

def natCharsAux : Nat → Nat → List Char → List Char
  | 0, _, acc => acc
  | fuel + 1, n, acc =>
    if n < 10 then digitChar n :: acc
    else natCharsAux fuel (n / 10) (digitChar (n % 10) :: acc)

def natChars (n : Nat) : List Char := natCharsAux (n + 1) n []

/-- Print a count of hundredths as a number with exactly two decimals. -/
def fixedDigits (n : Nat) : String :=
  String.mk (natChars (n / 100)) ++ "." ++
    (if n % 100 < 10 then "0" else "") ++ String.mk (natChars (n % 100))

def toFixed2 (q : ℚ) : String :=
  (if q < 0 then "-" else "") ++ fixedDigits (Int.floor (|q| * 100 + 1 / 2)).toNat

/-! ## The Duration Allocator (src/main.js lines 177-189, `distributeTimeEvenly`)

`r0` is the `Math.random()` draw for the overall target, `rs i` the draw for
entry `i`; all draws lie in `[0, 1)`.  The source is split into the rough
(pre-normalisation) durations, the pre-rounding scaled durations, and the
final two-decimal strings, mirroring its three stages.
-/

/-- Line 178: `targetHours = totalHours + (Math.random() * variation * 2 - variation)`. -/
def targetHours (totalHours variation r0 : ℚ) : ℚ :=
  totalHours + (r0 * variation * 2 - variation)

/-- Lines 179-183: `baseTime = targetHours / numEntries` and
`timeArray = Array.from({length: numEntries}, () => baseTime + (Math.random() * 2 - 0.5))`. -/
def roughDurations (numEntries : Nat) (totalHours variation r0 : ℚ) (rs : Nat → ℚ) : List ℚ :=
  let baseTime := targetHours totalHours variation r0 / (numEntries : ℚ)
  (List.range numEntries).map (fun i => baseTime + (rs i * 2 - 1 / 2))

/-- Lines 184-188 before `toFixed`: `sum = timeArray.reduce((a, b) => a + b, 0)`,
`adjustmentFactor = targetHours / sum`, then `time * adjustmentFactor` for each entry. -/
def distributePreRound (numEntries : Nat) (totalHours variation r0 : ℚ) (rs : Nat → ℚ) : List ℚ :=
  let timeArray := roughDurations numEntries totalHours variation r0 rs
  let sum := timeArray.foldl (· + ·) 0
  let adjustmentFactor := targetHours totalHours variation r0 / sum
  timeArray.map (fun time => time * adjustmentFactor)

/-- Line 188: the returned array, each entry formatted with `.toFixed(2)`. -/
def distributeTimeEvenly (numEntries : Nat) (totalHours variation r0 : ℚ) (rs : Nat → ℚ) : List String :=
  (distributePreRound numEntries totalHours variation r0 rs).map toFixed2

/-! ## Activity records (src/main.js lines 86-96 and 155-165)

A `Commit` carries the fields of the objects produced by `getCommits`
(`project`, localized `date` string, `message`, `author`, raw timestamp);
a `Review` those produced by `getGithubReviews` (`repo`, localized `date`
string, `pullRequest` title, raw timestamp).  Raw timestamps are
milliseconds, as in the calendar model above.
-/

structure Commit where
  project : String
  date : String
  message : String
  author : String
  rawDate : Int
deriving DecidableEq

structure Review where
  repo : String
  date : String
  pullRequest : String
  rawDate : Int
deriving DecidableEq

/-- One element of the `commitRows` / `reviewRows` arrays of `writeToCSV`:
a rendered CSV line together with the raw date used as the sort key. -/
structure Row where
  data : String
  date : Int
deriving DecidableEq

/-! ## `Array.prototype.at` (used as `durations.at(-i)` and `durations.at(i)`)

`at(k)` resolves a negative argument by adding the length and returns
`undefined` out of range.  Note `-0 = 0`, so `at(-0)` reads the *front*.
-/

def jsIndex (len : Nat) (i : Int) : Int :=
  if i < 0 then (len : Int) + i else i

def arrayAt {α : Type} (l : List α) (i : Int) : Option α :=
  if h : 0 ≤ jsIndex l.length i ∧ jsIndex l.length i < (l.length : Int) then
    some (l.get ⟨(jsIndex l.length i).toNat, by omega⟩)
  else none

/-- The duration string interpolated into the commit row of index `i`:
`${durations.at(-i)}` (template-literal interpolation of `undefined`
produces the string "undefined"). -/
def commitDuration (durations : List String) (i : Nat) : String :=
  (arrayAt durations (-(i : Int))).getD "undefined"

/-- The duration string interpolated into the review row of index `i`:
`${durations.at(i)}`. -/
def reviewDuration (durations : List String) (i : Nat) : String :=
  (arrayAt durations (i : Int)).getD "undefined"

/-! ## Row assembly (src/main.js lines 192-225, `writeToCSV`) -/

/-- Line 202-204: the template literal of a commit row.  The date and the
message are wrapped in double quotes; `Config.commitComment` is *not*. -/
def commitLine (c : Commit) (dur : String) : String :=
  c.project ++ ",\"" ++ c.date ++ "\",\"" ++ c.message ++ "\"," ++
    Config.commitComment ++ "," ++ dur

/-- Line 209-211: the template literal of a review row.  The date, the pull
request title *and* `Config.reviewComment` are wrapped in double quotes. -/
def reviewLine (v : Review) (dur : String) : String :=
  v.repo ++ ",\"" ++ v.date ++ "\",\"" ++ v.pullRequest ++ "\",\"" ++
    Config.reviewComment ++ "\"," ++ dur

/-- Lines 201-206: `commits.map((commit, i) => ({data: ..., date: commit.rawDate}))`. -/
def commitRows (commits : List Commit) (durations : List String) : List Row :=
  commits.enum.map (fun p => ⟨commitLine p.2 (commitDuration durations p.1), p.2.rawDate⟩)

/-- Lines 208-213: `reviews.map((review, i) => ({data: ..., date: review.rawDate}))`. -/
def reviewRows (reviews : List Review) (durations : List String) : List Row :=
  reviews.enum.map (fun p => ⟨reviewLine p.2 (reviewDuration durations p.1), p.2.rawDate⟩)

/-- Lines 215-217: `[...reviewRows, ...commitRows].sort((a, b) => a.date - b.date)`.
`Array.prototype.sort` is stable and the comparator orders by date
ascending; any stable sort is extensionally identical, so the sort is
modelled by stable insertion sort: an element is inserted *before* the
first element it compares `≤` to, and elements are folded in from the
right, which preserves the relative order of equal keys. -/
def orderedInsert (a : Row) : List Row → List Row
  | [] => [a]
  | b :: l => if a.date ≤ b.date then a :: b :: l else b :: orderedInsert a l

def sortRows (rows : List Row) : List Row := rows.foldr orderedInsert []

/-- `Array.prototype.join(sep)`: separator only *between* elements. -/
def joinWith (sep : String) : List String → String
  | [] => ""
  | [x] => x
  | x :: y :: xs => x ++ sep ++ joinWith sep (y :: xs)

/-- Lines 199-200. -/
def csvHeader : String := "Project/Repo,Date,Commit/Review Message,Comments,Time used\n"

/-- Lines 193-198: the allocation for `commits.length + reviews.length`
entries with the configured totals. -/
def timesheetDurations (commits : List Commit) (reviews : List Review)
    (r0 : ℚ) (rs : Nat → ℚ) : List String :=
  distributeTimeEvenly (commits.length + reviews.length)
    Config.totalHours Config.allowedVariation r0 rs

/-- Lines 215-217: the sorted `allRows`. -/
def assembledRows (commits : List Commit) (reviews : List Review)
    (r0 : ℚ) (rs : Nat → ℚ) : List Row :=
  sortRows (reviewRows reviews (timesheetDurations commits reviews r0 rs) ++
    commitRows commits (timesheetDurations commits reviews r0 rs))

/-- Lines 219-221: `csvContent = csvHeader + allRows.map(row => row.data).join("\n")`. -/
def writeToCSV (commits : List Commit) (reviews : List Review)
    (r0 : ℚ) (rs : Nat → ℚ) : String :=
  csvHeader ++ joinWith "\n" ((assembledRows commits reviews r0 rs).map Row.data)

/-! ## The Author/Identity Filter (src/main.js lines 232-238) -/

/-- Line 234-236: `commits.filter((commit) => Config.author.includes(commit.author))`. -/
def filterByAuthor (commits : List Commit) (author : List String) : List Commit :=
  commits.filter (fun commit => author.contains commit.author)

/-- Lines 232-238: the loop accumulating `allCommits = allCommits.concat(userCommits)`
over the per-project commit lists. -/
def collectUserCommits (commitLists : List (List Commit)) (author : List String) : List Commit :=
  commitLists.foldl (fun allCommits commits => allCommits ++ filterByAuthor commits author) []

/-- Absence of the newline character from a string: line integrity of a field. -/
def noNL (s : String) : Prop := '\n' ∉ s.data

instance (s : String) : Decidable (noNL s) := by
  rw [noNL]
  infer_instance

/-- The multiset of duration strings the rows read from a shared allocation
sequence: reviews read indices `0, …, numReviews-1` from the front, commits
read `at(-0), at(-1), …`. -/
def pairedDurations (durations : List String) (numReviews numCommits : Nat) : List String :=
  (List.range numReviews).map (reviewDuration durations) ++
    (List.range numCommits).map (commitDuration durations)

/-! ## Verified properties -/

/-- C1: Month Filter boundaries, evaluated at the target month March 2024
(year 2024, month index 2).  The first instant of the month is included and
one millisecond before it is excluded, as the claim states; but because
`endOfMonth` is `new Date(2024, 3, 0)` — local *midnight* of March 31 — the
last instant of the month (March 31, 23:59:59.999) is excluded, contradicting
the claim that a timestamp equal to the last instant of the target month is
included.  Midnight of the last day itself is the true inclusive upper bound,
and one millisecond after the last instant is excluded. -/
theorem isCommitInMonth_boundary :
  isCommitInMonth 2024 2 (newDate 2024 2 1) = true ∧
  isCommitInMonth 2024 2 (newDate 2024 2 1 - 1) = false ∧
  isCommitInMonth 2024 2 (newDate 2024 3 0) = true ∧
  isCommitInMonth 2024 2 (newDate 2024 3 0 + (msPerDay - 1)) = false ∧
  isCommitInMonth 2024 2 (newDate 2024 3 1) = false := by
  decide

/-- Evaluation lemma for `toFixed2`: supply the rounded hundredths count. -/
theorem toFixed2_eval (q : ℚ) (m : Int) (h : Int.floor (|q| * 100 + 1 / 2) = m) :
    toFixed2 q = (if q < 0 then "-" else "") ++ fixedDigits m.toNat := by
  rw [toFixed2, h]

theorem foldl_add_eq_sum (l : List ℚ) (a : ℚ) : l.foldl (· + ·) a = a + l.sum := by
  induction l generalizing a with
  | nil => simp
  | cons x xs ih =>
    rw [List.foldl_cons, ih, List.sum_cons]
    ring

theorem sum_map_mul (l : List ℚ) (c : ℚ) : (l.map (fun x => x * c)).sum = l.sum * c := by
  induction l with
  | nil => simp
  | cons x xs ih =>
    rw [List.map_cons, List.sum_cons, List.sum_cons, ih]
    ring

/-- C3 (amended): when the rough durations do not sum to zero, the pre-rounding
scaled durations sum *exactly* (in ideal arithmetic) to the effective total
`targetHours`, for all valid allocator inputs and outcomes of the draws. -/
theorem distributePreRound_sum_invariant (n : Nat) (tot vari r0 : ℚ) (rs : Nat → ℚ)
    (hn : 1 ≤ n) (htot : 0 < tot) (hvar : 0 ≤ vari) (hvt : vari < tot)
    (hr0 : 0 ≤ r0) (hr1 : r0 < 1)
    (hrs : ∀ i, 0 ≤ rs i) (hrs1 : ∀ i, rs i < 1)
    (hsum : (roughDurations n tot vari r0 rs).foldl (· + ·) 0 ≠ 0) :
    (distributePreRound n tot vari r0 rs).foldl (· + ·) 0 = targetHours tot vari r0 := by
  have hS : (roughDurations n tot vari r0 rs).sum ≠ 0 := by
    rw [foldl_add_eq_sum, zero_add] at hsum
    exact hsum
  rw [distributePreRound, foldl_add_eq_sum, zero_add, foldl_add_eq_sum, zero_add,
    sum_map_mul]
  field_simp

/-- Witness for C3: `count = 2`, `targetTotal = 160`, `variation = 0`,
all draws `1/2`; the rough durations sum to 161 ≠ 0 and the pre-rounding
durations sum to the effective total 160. -/
theorem distributePreRound_sum_invariant_witness :
    (distributePreRound 2 160 0 0 (fun _ => 1 / 2)).foldl (· + ·) 0 = targetHours 160 0 0 :=
  distributePreRound_sum_invariant 2 160 0 0 (fun _ => 1 / 2)
    (by decide) (by norm_num) (by norm_num) (by norm_num) (by norm_num) (by norm_num)
    (fun _ => by norm_num) (fun _ => by norm_num)
    (by norm_num [roughDurations, targetHours, List.range_succ])

/-- Counterexample to C3 as stated: with the valid inputs `count = 4`,
`targetTotal = 2`, `variation = 0` and all draws 0, every rough duration is
`2/4 - 1/2 = 0`, so the rough sum is 0 and the renormalisation degenerates:
the pre-rounding durations sum to 0, not to the effective total 2.  (In
JavaScript this outcome divides by zero and produces NaN durations, which do
not sum to the effective total either; in the `ℚ` model the division yields
0.  Under both semantics the sum invariant fails at this outcome.) -/
theorem distributePreRound_sum_degenerate :
    (roughDurations 4 2 0 0 (fun _ => 0)).foldl (· + ·) 0 = 0 ∧
    (distributePreRound 4 2 0 0 (fun _ => 0)).foldl (· + ·) 0 = 0 ∧
    targetHours 2 0 0 = 2 ∧ (0 : ℚ) ≠ 2 := by
  refine ⟨?_, ?_, by norm_num [targetHours], by norm_num⟩
  · norm_num [roughDurations, targetHours, List.range_succ]
  · norm_num [distributePreRound, roughDurations, targetHours, List.range_succ]

/-- C4 (amended): under the additional constraint
`count < 2 * (targetTotal - variation)` every pre-rounding scaled duration is
strictly positive, for every outcome of the draws.  (Without this constraint
the claim is false: see `distributeTimeEvenly_negative_duration`.) -/
theorem distributePreRound_positive (n : Nat) (tot vari r0 : ℚ) (rs : Nat → ℚ)
    (hn : 1 ≤ n) (htot : 0 < tot) (hvar : 0 ≤ vari) (hvt : vari < tot)
    (hcount : (n : ℚ) < 2 * (tot - vari))
    (hr0 : 0 ≤ r0) (hr1 : r0 < 1)
    (hrs : ∀ i, 0 ≤ rs i) (hrs1 : ∀ i, rs i < 1) :
    ∀ x ∈ distributePreRound n tot vari r0 rs, 0 < x := by
  intro x hx
  have hnQ : (0 : ℚ) < (n : ℚ) := by
    exact_mod_cast Nat.lt_of_lt_of_le Nat.zero_lt_one hn
  have hT : targetHours tot vari r0 = tot - vari + r0 * vari * 2 := by
    rw [targetHours]; ring
  have hTlb : tot - vari ≤ targetHours tot vari r0 := by
    rw [hT]
    nlinarith [mul_nonneg (mul_nonneg hr0 hvar) (by norm_num : (0 : ℚ) ≤ 2)]
  have hThalf : (n : ℚ) / 2 < targetHours tot vari r0 := by
    have : (n : ℚ) / 2 < tot - vari := by linarith
    linarith
  have hTpos : 0 < targetHours tot vari r0 := by
    have : (0 : ℚ) < (n : ℚ) / 2 := by positivity
    linarith
  have hbase : 1 / 2 < targetHours tot vari r0 / (n : ℚ) := by
    rw [lt_div_iff hnQ]
    calc (1 / 2 : ℚ) * n = (n : ℚ) / 2 := by ring
    _ < targetHours tot vari r0 := hThalf
  have hrough : ∀ t ∈ roughDurations n tot vari r0 rs, 0 < t := by
    intro t ht
    rw [roughDurations] at ht
    obtain ⟨i, _, rfl⟩ := List.mem_map.mp ht
    have := hrs i
    linarith
  have hne : roughDurations n tot vari r0 rs ≠ [] := by
    have hlen : (roughDurations n tot vari r0 rs).length = n := by
      simp [roughDurations]
    intro h
    rw [h] at hlen
    simp at hlen
    omega
  have hSpos : 0 < (roughDurations n tot vari r0 rs).sum :=
    List.sum_pos _ hrough hne
  rw [distributePreRound] at hx
  obtain ⟨t, ht, rfl⟩ := List.mem_map.mp hx
  have htpos := hrough t ht
  rw [foldl_add_eq_sum, zero_add]
  exact mul_pos htpos (div_pos hTpos hSpos)

/-- Witness for C4 (amended): `count = 2`, `targetTotal = 160`,
`variation = 5`, all draws `1/2`; the pre-rounding durations are `[80, 80]`
and the theorem yields `0 < 80` for the element 80. -/
theorem distributePreRound_positive_witness : (0 : ℚ) < 80 := by
  have h : distributePreRound 2 160 5 (1 / 2) (fun _ => 1 / 2) = [80, 80] := by
    norm_num [distributePreRound, roughDurations, targetHours, List.range_succ]
  exact distributePreRound_positive 2 160 5 (1 / 2) (fun _ => 1 / 2)
    (by decide) (by norm_num) (by norm_num) (by norm_num) (by norm_num)
    (by norm_num) (by norm_num) (fun _ => by norm_num) (fun _ => by norm_num)
    80 (by rw [h]; simp)

/-- Counterexample to C4 as stated: with the valid allocator inputs
`count = 3`, `targetTotal = 1`, `variation = 0` and draws
`r(0) = 0, r(1) = r(2) = 3/4`, the first rough duration is `1/3 - 1/2 < 0`
while the rough sum `5/2` is positive, so after renormalisation the first
pre-rounding duration is `-1/15 < 0` and the first *returned* duration is
the string "-0.07" — not strictly positive. -/
theorem distributeTimeEvenly_negative_duration :
    (distributePreRound 3 1 0 0 (fun i => if i = 0 then 0 else 3 / 4)).get? 0 =
      some (-1 / 15) ∧
    (-1 / 15 : ℚ) < 0 ∧
    (distributeTimeEvenly 3 1 0 0 (fun i => if i = 0 then 0 else 3 / 4)).get? 0 =
      some "-0.07" := by
  have h : distributePreRound 3 1 0 0 (fun i => if i = 0 then 0 else 3 / 4) =
      [-1 / 15, 8 / 15, 8 / 15] := by
    norm_num [distributePreRound, roughDurations, targetHours, List.range_succ]
  refine ⟨by rw [h]; rfl, by norm_num, ?_⟩
  rw [distributeTimeEvenly, h]
  have hfix : toFixed2 (-1 / 15) = "-0.07" := by
    rw [toFixed2_eval (-1 / 15) 7]
    · rw [if_pos (by norm_num)]
      decide
    · rw [abs_of_neg (by norm_num)]
      rw [Int.floor_eq_iff] <;> norm_num
  simp only [List.map_cons, hfix, List.get?]

/-- C5: the allocator always returns exactly `count` values, and at
`count = 0` it returns the empty sequence (no division-by-zero failure:
every stage is total). -/
theorem distributeTimeEvenly_count (n : Nat) (tot vari r0 : ℚ) (rs : Nat → ℚ) :
    (distributeTimeEvenly n tot vari r0 rs).length = n ∧
    distributeTimeEvenly 0 tot vari r0 rs = [] := by
  constructor
  · simp [distributeTimeEvenly, distributePreRound, roughDurations]
  · simp [distributeTimeEvenly, distributePreRound, roughDurations]

/-! ## Helper lemmas about `arrayAt`, `enum`, the sort and newlines -/

theorem arrayAt_eq_get? {α : Type} (l : List α) (i : Int) (h0 : 0 ≤ i) :
    arrayAt l i = l.get? i.toNat := by
  rw [arrayAt]
  have hj : jsIndex l.length i = i := by
    rw [jsIndex, if_neg (by omega)]
  simp only [hj]
  by_cases hi : i < (l.length : Int)
  · rw [dif_pos ⟨h0, hi⟩, List.get?_eq_get (by omega : i.toNat < l.length)]
  · rw [dif_neg (by tauto)]
    symm
    rw [List.get?_eq_none]
    omega

theorem arrayAt_neg {α : Type} (l : List α) (i : Nat) (h1 : 1 ≤ i) (h2 : i ≤ l.length) :
    arrayAt l (-(i : Int)) = l.get? (l.length - i) := by
  rw [arrayAt]
  have hj : jsIndex l.length (-(i : Int)) = ((l.length - i : Nat) : Int) := by
    rw [jsIndex, if_pos (by omega)]
    omega
  simp only [hj]
  rw [dif_pos ⟨by omega, by omega⟩,
    List.get?_eq_get (by omega : l.length - i < l.length)]
  simp

theorem arrayAt_mem {α : Type} {l : List α} {i : Int} {x : α}
    (h : arrayAt l i = some x) : x ∈ l := by
  rw [arrayAt] at h
  split at h
  · rw [← Option.some_inj.mp h]
    exact l.get_mem _ _
  · exact absurd h (by simp)

theorem reviewDuration_eq (ds : List String) (i : Nat) :
    reviewDuration ds i = (ds.get? i).getD "undefined" := by
  rw [reviewDuration, arrayAt_eq_get? ds (i : Int) (by omega)]
  simp

theorem commitDuration_zero (ds : List String) :
    commitDuration ds 0 = (ds.get? 0).getD "undefined" := by
  rw [commitDuration]
  have h : (-((0 : Nat) : Int)) = ((0 : Nat) : Int) := by norm_num
  rw [h, arrayAt_eq_get? ds _ (by omega)]
  rfl

theorem commitDuration_back (ds : List String) (i : Nat) (h1 : 1 ≤ i) (h2 : i ≤ ds.length) :
    commitDuration ds i = (ds.get? (ds.length - i)).getD "undefined" := by
  rw [commitDuration, arrayAt_neg ds i h1 h2]

theorem commitDuration_mem_or (ds : List String) (i : Nat) :
    commitDuration ds i ∈ ds ∨ commitDuration ds i = "undefined" := by
  rw [commitDuration]
  cases h : arrayAt ds (-(i : Int)) with
  | none => exact Or.inr rfl
  | some v =>
    left
    simpa using arrayAt_mem h

theorem reviewDuration_mem_or (ds : List String) (i : Nat) :
    reviewDuration ds i ∈ ds ∨ reviewDuration ds i = "undefined" := by
  rw [reviewDuration]
  cases h : arrayAt ds ((i : Nat) : Int) with
  | none => exact Or.inr rfl
  | some v =>
    left
    simpa using arrayAt_mem h

theorem snd_mem_of_mem_enumFrom {α : Type} {p : Nat × α} :
    ∀ {n : Nat} {l : List α}, p ∈ l.enumFrom n → p.2 ∈ l := by
  intro n l
  induction l generalizing n with
  | nil => intro h; exact absurd h (List.not_mem_nil _)
  | cons x t ih =>
    intro h
    rcases List.mem_cons.mp h with h | h
    · rw [h]
      exact List.mem_cons_self _ _
    · exact List.mem_cons_of_mem _ (ih h)

theorem snd_mem_of_mem_enum {α : Type} {p : Nat × α} {l : List α}
    (h : p ∈ l.enum) : p.2 ∈ l :=
  snd_mem_of_mem_enumFrom h

theorem sortRows_cons (x : Row) (t : List Row) :
    sortRows (x :: t) = orderedInsert x (sortRows t) := rfl

theorem mem_orderedInsert (a x : Row) (l : List Row) :
    x ∈ orderedInsert a l ↔ x ∈ a :: l := by
  induction l with
  | nil => exact Iff.rfl
  | cons b t ih =>
    rw [orderedInsert]
    by_cases hab : a.date ≤ b.date
    · rw [if_pos hab]
    · rw [if_neg hab]
      simp only [List.mem_cons, ih]
      tauto

theorem perm_orderedInsert (a : Row) (l : List Row) :
    (orderedInsert a l).Perm (a :: l) := by
  induction l with
  | nil => exact List.Perm.refl _
  | cons b t ih =>
    rw [orderedInsert]
    by_cases hab : a.date ≤ b.date
    · rw [if_pos hab]
    · rw [if_neg hab]
      exact (ih.cons b).trans (List.Perm.swap a b t)

theorem pairwise_orderedInsert (a : Row) (l : List Row)
    (h : l.Pairwise (fun x y => x.date ≤ y.date)) :
    (orderedInsert a l).Pairwise (fun x y => x.date ≤ y.date) := by
  induction l with
  | nil => simp [orderedInsert]
  | cons b t ih =>
    rw [List.pairwise_cons] at h
    obtain ⟨hb, ht⟩ := h
    rw [orderedInsert]
    by_cases hab : a.date ≤ b.date
    · rw [if_pos hab, List.pairwise_cons]
      constructor
      · intro x hx
        rcases List.mem_cons.mp hx with rfl | hx
        · exact hab
        · exact le_trans hab (hb x hx)
      · exact List.pairwise_cons.mpr ⟨hb, ht⟩
    · rw [if_neg hab, List.pairwise_cons]
      constructor
      · intro x hx
        rcases List.mem_cons.mp ((mem_orderedInsert a x t).mp hx) with rfl | hx
        · omega
        · exact hb x hx
      · exact ih ht

theorem sortRows_perm (l : List Row) : (sortRows l).Perm l := by
  induction l with
  | nil => exact List.Perm.refl _
  | cons x t ih =>
    rw [sortRows_cons]
    exact (perm_orderedInsert x (sortRows t)).trans (ih.cons x)

theorem sortRows_pairwise (l : List Row) :
    (sortRows l).Pairwise (fun x y => x.date ≤ y.date) := by
  induction l with
  | nil => simp [sortRows]
  | cons x t ih =>
    rw [sortRows_cons]
    exact pairwise_orderedInsert x _ ih

theorem filter_orderedInsert (d : Int) (a : Row) (l : List Row) :
    (orderedInsert a l).filter (fun r => r.date == d) =
      if a.date == d then a :: l.filter (fun r => r.date == d)
      else l.filter (fun r => r.date == d) := by
  induction l with
  | nil =>
    rw [orderedInsert]
    simp only [List.filter_cons, List.filter_nil]
  | cons b t ih =>
    rw [orderedInsert]
    by_cases hab : a.date ≤ b.date
    · rw [if_pos hab, List.filter_cons]
    · rw [if_neg hab, List.filter_cons, ih, List.filter_cons]
      simp only [beq_iff_eq]
      by_cases ha : a.date = d
      · by_cases hb : b.date = d
        · omega
        · simp [ha, hb]
      · by_cases hb : b.date = d
        · simp [ha, hb]
        · simp [ha, hb]

theorem sortRows_filter (d : Int) (l : List Row) :
    (sortRows l).filter (fun r => r.date == d) = l.filter (fun r => r.date == d) := by
  induction l with
  | nil => rfl
  | cons x t ih =>
    rw [sortRows_cons, filter_orderedInsert, ih, List.filter_cons]

theorem str_data_append (s t : String) : (s ++ t).data = s.data ++ t.data := rfl

theorem noNL_append (s t : String) : noNL (s ++ t) ↔ noNL s ∧ noNL t := by
  rw [noNL, noNL, noNL, str_data_append]
  simp [List.mem_append, not_or]

theorem mem_natCharsAux (fuel n : Nat) (acc : List Char) (c : Char)
    (h : c ∈ natCharsAux fuel n acc) : c ∈ acc ∨ ∃ d, d < 10 ∧ c = digitChar d := by
  induction fuel generalizing n acc with
  | zero => exact Or.inl h
  | succ fuel ih =>
    rw [natCharsAux] at h
    by_cases hn : n < 10
    · rw [if_pos hn] at h
      rcases List.mem_cons.mp h with rfl | h
      · exact Or.inr ⟨n, hn, rfl⟩
      · exact Or.inl h
    · rw [if_neg hn] at h
      rcases ih _ _ h with h | h
      · rcases List.mem_cons.mp h with rfl | h
        · exact Or.inr ⟨n % 10, Nat.mod_lt _ (by norm_num), rfl⟩
        · exact Or.inl h
      · exact Or.inr h

theorem digitChar_ne_newline (d : Nat) (h : d < 10) : digitChar d ≠ '\n' := by
  interval_cases d <;> decide

theorem noNL_natChars (n : Nat) : '\n' ∉ natChars n := by
  intro h
  rcases mem_natCharsAux _ _ _ _ h with h | ⟨d, hd, he⟩
  · exact absurd h (List.not_mem_nil _)
  · exact digitChar_ne_newline d hd he.symm

theorem noNL_mk_natChars (n : Nat) : noNL (String.mk (natChars n)) :=
  noNL_natChars n

theorem noNL_toFixed2 (q : ℚ) : noNL (toFixed2 q) := by
  rw [toFixed2, fixedDigits]
  simp only [noNL_append]
  repeat' apply And.intro
  all_goals first
    | exact noNL_mk_natChars _
    | split
    | decide
  all_goals decide

theorem noNL_commitLine (c : Commit) (dur : String)
    (h1 : noNL c.project) (h2 : noNL c.date) (h3 : noNL c.message) (hd : noNL dur) :
    noNL (commitLine c dur) := by
  rw [commitLine]
  simp only [noNL_append]
  repeat' apply And.intro
  all_goals first | assumption | decide

theorem noNL_reviewLine (v : Review) (dur : String)
    (h1 : noNL v.repo) (h2 : noNL v.date) (h3 : noNL v.pullRequest) (hd : noNL dur) :
    noNL (reviewLine v dur) := by
  rw [reviewLine]
  simp only [noNL_append]
  repeat' apply And.intro
  all_goals first | assumption | decide

theorem noNL_mem_distribute (n : Nat) (tot vari r0 : ℚ) (rs : Nat → ℚ) (s : String)
    (h : s ∈ distributeTimeEvenly n tot vari r0 rs) : noNL s := by
  rw [distributeTimeEvenly] at h
  obtain ⟨q, _, rfl⟩ := List.mem_map.mp h
  exact noNL_toFixed2 q

theorem joinWith_newline_count (lines : List String)
    (h : ∀ s ∈ lines, noNL s) (hne : lines ≠ []) :
    (joinWith "\n" lines).data.count '\n' = lines.length - 1 := by
  induction lines with
  | nil => cases hne rfl
  | cons x xs ih =>
    cases xs with
    | nil =>
      rw [joinWith]
      simpa using List.count_eq_zero.mpr (h x (by simp))
    | cons y ys =>
      rw [joinWith, str_data_append, str_data_append, List.count_append, List.count_append]
      rw [ih (fun s hs => h s (List.mem_cons_of_mem _ hs)) (by simp)]
      have hx : x.data.count '\n' = 0 := List.count_eq_zero.mpr (h x (by simp))
      have hnl : ("\n" : String).data.count '\n' = 1 := by decide
      rw [hx, hnl]
      simp only [List.length_cons]
      omega

/-! ## Claim theorems about the Row Assembler and Serializer -/

/-- C2 (amended): review entries are paired with durations taken from the
front of the allocation sequence in forward index order (review `i` reads
index `i`); commit entries with index `i ≥ 1` are paired with the duration
`i` positions from the end (index `length - i`), but commit 0 is paired with
the duration at index 0 — the *front* of the sequence, not the back — since
`at(-0)` is `at(0)`.  The last two conjuncts restate how the commit and
review rows embed these durations. -/
theorem writeToCSV_pairing (durations : List String) :
    (∀ i : Nat, reviewDuration durations i = (durations.get? i).getD "undefined") ∧
    (∀ i : Nat, 1 ≤ i → i ≤ durations.length →
      commitDuration durations i = (durations.get? (durations.length - i)).getD "undefined") ∧
    commitDuration durations 0 = (durations.get? 0).getD "undefined" ∧
    (∀ commits : List Commit, (commitRows commits durations).map Row.data =
      commits.enum.map (fun p => commitLine p.2 (commitDuration durations p.1))) ∧
    (∀ reviews : List Review, (reviewRows reviews durations).map Row.data =
      reviews.enum.map (fun p => reviewLine p.2 (reviewDuration durations p.1))) := by
  refine ⟨fun i => reviewDuration_eq durations i,
    fun i h1 h2 => commitDuration_back durations i h1 h2,
    commitDuration_zero durations, fun commits => ?_, fun reviews => ?_⟩
  · rw [commitRows, List.map_map]
    rfl
  · rw [reviewRows, List.map_map]
    rfl

/-- Witness for C2 (amended): on the three-element allocation
`["10.00", "20.00", "30.00"]`, commit 1 reads the duration one position from
the end, namely index 2. -/
theorem writeToCSV_pairing_witness :
    commitDuration ["10.00", "20.00", "30.00"] 1 = "30.00" := by
  have h := (writeToCSV_pairing ["10.00", "20.00", "30.00"]).2.1 1 (by norm_num) (by simp)
  simpa using h

/-- Counterexample to C2 as stated: on the allocation
`["10.00", "20.00", "30.00"]` the *first* commit is paired with "10.00",
the front of the sequence (the same duration as the first review), and not
with a duration taken from the back walking backward ("30.00"). -/
theorem commitDuration_front_aliasing :
    commitDuration ["10.00", "20.00", "30.00"] 0 = "10.00" ∧
    reviewDuration ["10.00", "20.00", "30.00"] 0 = "10.00" ∧
    commitDuration ["10.00", "20.00", "30.00"] 0 ≠ "30.00" := by
  refine ⟨by decide, by decide, by decide⟩

/-- C9 (amended): with at least one review and at least one commit sharing an
allocation sequence of matching length, the first commit row reads the same
duration as the first review row (both read index 0, because `at(-0)` reads
the front); no row, review or commit, reads index `numReviews`; and when the
allocation values are pairwise distinct, the multiset of durations embedded
in the rows is not a permutation of the allocation sequence. -/
theorem durationPairing_aliasing (ds : List String) (R C : Nat)
    (hR : 1 ≤ R) (hC : 1 ≤ C) (hlen : ds.length = R + C) :
    commitDuration ds 0 = reviewDuration ds 0 ∧
    (∀ i, i < R → jsIndex ds.length (i : Int) ≠ (R : Int)) ∧
    (∀ i, i < C → jsIndex ds.length (-(i : Int)) ≠ (R : Int)) ∧
    (ds.Nodup → ¬ (pairedDurations ds R C).Perm ds) := by
  refine ⟨?_, ?_, ?_, ?_⟩
  · rw [commitDuration_zero, reviewDuration_eq]
  · intro i hi
    rw [jsIndex, if_neg (by omega)]
    omega
  · intro i hi
    rw [jsIndex]
    by_cases h0 : i = 0
    · rw [h0, if_neg (by norm_num)]
      norm_num
      omega
    · rw [if_pos (by omega)]
      omega
  · intro hnd hperm
    obtain ⟨a, t, rfl⟩ : ∃ a t, ds = a :: t := by
      cases ds with
      | nil => simp at hlen; omega
      | cons a t => exact ⟨a, t, rfl⟩
    have hv : reviewDuration (a :: t) 0 = a := by
      rw [reviewDuration_eq]
      rfl
    have hv2 : commitDuration (a :: t) 0 = a := by
      rw [commitDuration_zero]
      rfl
    have hmem1 : a ∈ (List.range R).map (reviewDuration (a :: t)) :=
      List.mem_map.mpr ⟨0, List.mem_range.mpr (by omega), hv⟩
    have hmem2 : a ∈ (List.range C).map (commitDuration (a :: t)) :=
      List.mem_map.mpr ⟨0, List.mem_range.mpr (by omega), hv2⟩
    have hcount : 2 ≤ (pairedDurations (a :: t) R C).count a := by
      rw [pairedDurations, List.count_append]
      have c1 : 1 ≤ ((List.range R).map (reviewDuration (a :: t))).count a :=
        List.count_pos_iff_mem.mpr hmem1
      have c2 : 1 ≤ ((List.range C).map (commitDuration (a :: t))).count a :=
        List.count_pos_iff_mem.mpr hmem2
      omega
    have heq := hperm.count_eq a
    have hle : (a :: t).count a ≤ 1 := List.nodup_iff_count_le_one.mp hnd a
    omega

/-- Witness for C9 (amended): on `["10.00", "20.00", "30.00"]` with one
review and two commits, the first commit row and the first review row read
the same duration. -/
theorem durationPairing_aliasing_witness :
    commitDuration ["10.00", "20.00", "30.00"] 0 =
      reviewDuration ["10.00", "20.00", "30.00"] 0 :=
  (durationPairing_aliasing ["10.00", "20.00", "30.00"] 1 2
    (by norm_num) (by norm_num) (by simp)).1

/-- Counterexample to C9's final clause as stated: when the allocation
values repeat, the row durations *can* be a permutation of the allocation
sequence — with allocation `["8.00", "8.00", "8.00"]`, one review and two
commits (valid inputs for the claim), the rows read exactly a permutation. -/
theorem pairedDurations_perm_duplicates :
    (1 ≤ 1 ∧ 1 ≤ 2 ∧ (["8.00", "8.00", "8.00"] : List String).length = 1 + 2) ∧
    (pairedDurations ["8.00", "8.00", "8.00"] 1 2).Perm ["8.00", "8.00", "8.00"] := by
  constructor
  · exact ⟨le_rfl, by norm_num, by simp⟩
  · have h : pairedDurations ["8.00", "8.00", "8.00"] 1 2 = ["8.00", "8.00", "8.00"] := by
      decide
    rw [h]

/-- C6: the assembled row set is the stable ascending sort of the
review rows concatenated before the commit rows: it is a permutation of
them, it is sorted by the raw timestamp, and for every timestamp `d` the
rows carrying `d` appear with all review rows before all commit rows, in
their original order (stability with the reviews-before-commits tie-break). -/
theorem assembledRows_sorted_stable (commits : List Commit) (reviews : List Review)
    (durations : List String) :
    (sortRows (reviewRows reviews durations ++ commitRows commits durations)).Perm
      (reviewRows reviews durations ++ commitRows commits durations) ∧
    (sortRows (reviewRows reviews durations ++ commitRows commits durations)).Pairwise
      (fun x y => x.date ≤ y.date) ∧
    (∀ d : Int,
      (sortRows (reviewRows reviews durations ++ commitRows commits durations)).filter
          (fun r => r.date == d) =
        (reviewRows reviews durations).filter (fun r => r.date == d) ++
          (commitRows commits durations).filter (fun r => r.date == d)) :=
  ⟨sortRows_perm _, sortRows_pairwise _,
    fun d => by rw [sortRows_filter, List.filter_append]⟩

/-- C10: in every assembled commit row the fixed commit comment appears as a
bare (unquoted) CSV field, while in every assembled review row the fixed
review comment is wrapped in double quotes. -/
theorem commentQuoting_asymmetry (commits : List Commit) (reviews : List Review)
    (durations : List String) :
    (∀ row ∈ commitRows commits durations, ∃ c dur, c ∈ commits ∧
      row.data = c.project ++ ",\"" ++ c.date ++ "\",\"" ++ c.message ++ "\"," ++
        Config.commitComment ++ "," ++ dur) ∧
    (∀ row ∈ reviewRows reviews durations, ∃ v dur, v ∈ reviews ∧
      row.data = v.repo ++ ",\"" ++ v.date ++ "\",\"" ++ v.pullRequest ++ "\",\"" ++
        Config.reviewComment ++ "\"," ++ dur) := by
  constructor
  · intro row hrow
    rw [commitRows] at hrow
    obtain ⟨p, hp, rfl⟩ := List.mem_map.mp hrow
    exact ⟨p.2, commitDuration durations p.1, snd_mem_of_mem_enum hp, rfl⟩
  · intro row hrow
    rw [reviewRows] at hrow
    obtain ⟨p, hp, rfl⟩ := List.mem_map.mp hrow
    exact ⟨p.2, reviewDuration durations p.1, snd_mem_of_mem_enum hp, rfl⟩

/-- Witness for C10: the single commit row built from one concrete commit
has the stated unquoted-comment shape. -/
theorem commentQuoting_asymmetry_witness :
    ∃ c dur, c ∈ [(⟨"p", "March 1, 2024", "m", "Alice", (0 : Int)⟩ : Commit)] ∧
      ((commitRows [⟨"p", "March 1, 2024", "m", "Alice", 0⟩] ["5.00"]).getD 0
          ⟨"", 0⟩).data =
        c.project ++ ",\"" ++ c.date ++ "\",\"" ++ c.message ++ "\"," ++
          Config.commitComment ++ "," ++ dur :=
  (commentQuoting_asymmetry [⟨"p", "March 1, 2024", "m", "Alice", 0⟩] [] ["5.00"]).1
    _ (by decide)

/-- Every assembled row is a commit line or a review line built from an
input record, with a duration drawn from the shared allocation (or the
string "undefined" for an out-of-range read). -/
theorem mem_assembledRows (commits : List Commit) (reviews : List Review)
    (r0 : ℚ) (rs : Nat → ℚ) (row : Row)
    (h : row ∈ assembledRows commits reviews r0 rs) :
    (∃ c dur, c ∈ commits ∧
      (dur ∈ timesheetDurations commits reviews r0 rs ∨ dur = "undefined") ∧
      row.data = commitLine c dur) ∨
    (∃ v dur, v ∈ reviews ∧
      (dur ∈ timesheetDurations commits reviews r0 rs ∨ dur = "undefined") ∧
      row.data = reviewLine v dur) := by
  rw [assembledRows] at h
  have h2 := (sortRows_perm _).mem_iff.mp h
  rcases List.mem_append.mp h2 with h3 | h3
  · right
    rw [reviewRows] at h3
    obtain ⟨p, hp, rfl⟩ := List.mem_map.mp h3
    exact ⟨p.2, reviewDuration _ p.1, snd_mem_of_mem_enum hp,
      reviewDuration_mem_or _ _, rfl⟩
  · left
    rw [commitRows] at h3
    obtain ⟨p, hp, rfl⟩ := List.mem_map.mp h3
    exact ⟨p.2, commitDuration _ p.1, snd_mem_of_mem_enum hp,
      commitDuration_mem_or _ _, rfl⟩

/-- C7: the serialized output is the exact header line followed by the
joined row lines; there is one row per input record; every line is a
comma-separated commit or review line with the date and the free-text
message/title wrapped in double quotes (see `commitLine` / `reviewLine`);
and, provided the input text fields contain no newline character, the output
contains exactly one newline per row — the header's newline plus one
separator *between* consecutive rows, hence no trailing newline after the
last row. -/
theorem writeToCSV_serialization (commits : List Commit) (reviews : List Review)
    (r0 : ℚ) (rs : Nat → ℚ)
    (hc : ∀ c ∈ commits, noNL c.project ∧ noNL c.date ∧ noNL c.message)
    (hv : ∀ v ∈ reviews, noNL v.repo ∧ noNL v.date ∧ noNL v.pullRequest) :
    writeToCSV commits reviews r0 rs =
      "Project/Repo,Date,Commit/Review Message,Comments,Time used\n" ++
        joinWith "\n" ((assembledRows commits reviews r0 rs).map Row.data) ∧
    (assembledRows commits reviews r0 rs).length = commits.length + reviews.length ∧
    (∀ row ∈ assembledRows commits reviews r0 rs,
      (∃ c dur, c ∈ commits ∧ row.data = commitLine c dur) ∨
      (∃ v dur, v ∈ reviews ∧ row.data = reviewLine v dur)) ∧
    (assembledRows commits reviews r0 rs ≠ [] →
      (writeToCSV commits reviews r0 rs).data.count '\n' =
        (assembledRows commits reviews r0 rs).length) := by
  have hnoNL : ∀ row ∈ assembledRows commits reviews r0 rs, noNL row.data := by
    intro row hrow
    rcases mem_assembledRows commits reviews r0 rs row hrow with
      ⟨c, dur, hcm, hdur, he⟩ | ⟨v, dur, hvm, hdur, he⟩
    · have hdn : noNL dur := by
        rcases hdur with hd | hd
        · exact noNL_mem_distribute _ _ _ _ _ _ hd
        · rw [hd]
          decide
      obtain ⟨h1, h2, h3⟩ := hc c hcm
      rw [he]
      exact noNL_commitLine c dur h1 h2 h3 hdn
    · have hdn : noNL dur := by
        rcases hdur with hd | hd
        · exact noNL_mem_distribute _ _ _ _ _ _ hd
        · rw [hd]
          decide
      obtain ⟨h1, h2, h3⟩ := hv v hvm
      rw [he]
      exact noNL_reviewLine v dur h1 h2 h3 hdn
  refine ⟨rfl, ?_, ?_, ?_⟩
  · rw [assembledRows, (sortRows_perm _).length_eq, List.length_append]
    simp [reviewRows, commitRows]
    omega
  · intro row hrow
    rcases mem_assembledRows commits reviews r0 rs row hrow with
      ⟨c, dur, hcm, _, he⟩ | ⟨v, dur, hvm, _, he⟩
    · exact Or.inl ⟨c, dur, hcm, he⟩
    · exact Or.inr ⟨v, dur, hvm, he⟩
  · intro hne
    have hcount := joinWith_newline_count ((assembledRows commits reviews r0 rs).map Row.data)
      (fun s hs => by
        obtain ⟨row, hrow, rfl⟩ := List.mem_map.mp hs
        exact hnoNL row hrow)
      (by simpa using hne)
    rw [writeToCSV, str_data_append, List.count_append]
    have h1 : csvHeader.data.count '\n' = 1 := by decide
    rw [h1, hcount, List.length_map]
    have hpos : 0 < (assembledRows commits reviews r0 rs).length := List.length_pos.mpr hne
    omega

/-- Witness for C7: one concrete commit and one concrete review produce an
output with exactly two newline characters — one after the header, one
between the two rows, none at the end. -/
theorem writeToCSV_serialization_witness :
    (writeToCSV [⟨"p", "March 1, 2024", "m", "Alice", 100⟩]
        [⟨"r", "March 2, 2024", "t", 200⟩] 0 (fun _ => 0)).data.count '\n' = 2 := by
  have h := writeToCSV_serialization [⟨"p", "March 1, 2024", "m", "Alice", 100⟩]
    [⟨"r", "March 2, 2024", "t", 200⟩] 0 (fun _ => 0) (by decide) (by decide)
  have hlen : (assembledRows [⟨"p", "March 1, 2024", "m", "Alice", 100⟩]
      [⟨"r", "March 2, 2024", "t", 200⟩] 0 (fun _ => 0)).length = 2 := by
    rw [h.2.1]
    rfl
  have hne : assembledRows [⟨"p", "March 1, 2024", "m", "Alice", 100⟩]
      [⟨"r", "March 2, 2024", "t", 200⟩] 0 (fun _ => 0) ≠ [] := by
    intro he
    rw [he] at hlen
    simp at hlen
  rw [h.2.2.2 hne, hlen]

/-- C8: the Author/Identity Filter keeps exactly the commits whose author is
a member of the allow-list (case-sensitive string equality), preserves
relative order (the result is a sublist of the input), returns the empty
list for an empty allow-list, and — through the accumulation loop of
`fillTimesheet` — a commit authored by "Bob" never survives the allow-list
containing only "Alice". -/
theorem fillTimesheet_author_filter (commits : List Commit) (author : List String)
    (commitLists : List (List Commit)) :
    (∀ c, c ∈ filterByAuthor commits author ↔ c ∈ commits ∧ c.author ∈ author) ∧
    (filterByAuthor commits author).Sublist commits ∧
    filterByAuthor commits [] = [] ∧
    (∀ c, c ∈ collectUserCommits commitLists ["Alice"] → c.author ≠ "Bob") := by
  have haux : ∀ (lists : List (List Commit)) (acc : List Commit) (c : Commit),
      c ∈ lists.foldl (fun allCommits cs => allCommits ++ filterByAuthor cs ["Alice"]) acc →
      c ∈ acc ∨ c.author = "Alice" := by
    intro lists
    induction lists with
    | nil =>
      intro acc c h
      exact Or.inl h
    | cons l ls ih =>
      intro acc c h
      rw [List.foldl_cons] at h
      rcases ih _ c h with h2 | h2
      · rcases List.mem_append.mp h2 with h3 | h3
        · exact Or.inl h3
        · right
          rw [filterByAuthor, List.mem_filter] at h3
          simpa using h3.2
      · exact Or.inr h2
  refine ⟨?_, List.filter_sublist _, ?_, ?_⟩
  · intro c
    rw [filterByAuthor, List.mem_filter]
    constructor
    · rintro ⟨h1, h2⟩
      exact ⟨h1, by simpa using h2⟩
    · rintro ⟨h1, h2⟩
      exact ⟨h1, by simpa using h2⟩
  · simp [filterByAuthor]
  · intro c h
    rw [collectUserCommits] at h
    rcases haux commitLists [] c h with h2 | h2
    · exact absurd h2 (List.not_mem_nil c)
    · rw [h2]
      decide

/-- Witness for C8: a concrete "Alice" commit passes the filter with
allow-list containing exactly "Alice". -/
theorem fillTimesheet_author_filter_witness :
    (⟨"p", "D", "m", "Alice", 0⟩ : Commit) ∈
      filterByAuthor [⟨"p", "D", "m", "Alice", 0⟩, ⟨"q", "E", "n", "Bob", 1⟩] ["Alice"] :=
  ((fillTimesheet_author_filter [⟨"p", "D", "m", "Alice", 0⟩, ⟨"q", "E", "n", "Bob", 1⟩]
      ["Alice"] []).1 _).mpr (by decide)

end FillTimesheet
